import Mathlib

/-!
Verification of the Lumina-Layers color-calibration and mesh-generation
pipeline against its natural-language specification.

Shallow embedding: the Python functions in `src/core` and `src/utils` are
translated into executable Lean definitions (machine integers as `Nat`/`Int`,
numpy arrays as lists or functions, fallible code as `Option`/`Except`),
and the specified properties are proved about those definitions.
-/

set_option maxHeartbeats 1000000

set_option maxRecDepth 4000

/-! ## StackCodec (src/core/calibration.py lines 94-100, src/core/converter.py lines 228-233)

The index-to-stack encoding loop appears verbatim in both files:

    digits = []
    temp = i
    for _ in range(5):
        digits.append(temp % 4)
        temp //= 4
    stack = digits[::-1]
-/

namespace StackCodec

/-- The `for _ in range(n): digits.append(temp % 4); temp //= 4` loop:
`stackDigits n temp` is the list of the `n` least-significant base-4 digits of
`temp`, least-significant first (Python's `digits` list). -/
def stackDigits : Nat → Nat → List Nat
  | 0, _ => []
  | n + 1, temp => temp % 4 :: stackDigits n (temp / 4)

/-- `stack = digits[::-1]`: the 5 base-4 digits of `i`, most-significant first. -/
def encode (i : Nat) : List Nat :=
  (stackDigits 5 i).reverse

/-- Modelled from the spec: the inverse `decode(stack: MaterialStack) -> int`
is not a named function in `src/` (only `encode` loops appear there); the spec
describes it as recomposition of the base-M digits, most-significant first. -/
def decode (stack : List Nat) : Nat :=
  stack.foldl (fun a d => a * 4 + d) 0

/-- Claim C2: for every index `i` in `[0, 4^5) = [0, 1024)`, encoding `i` as
the 5 base-4 digits most-significant first and then decoding those digits by
base-4 recomposition yields `i` again. -/
theorem decode_encode_roundtrip (i : Nat) (hi : i < 1024) :
    decode (encode i) = i := by
  simp only [encode, stackDigits, decode, List.reverse_cons, List.reverse_nil,
    List.nil_append, List.cons_append, List.foldl_cons, List.foldl_nil]
  omega

/-- Witness for C2 at the concrete index 694. -/
theorem decode_encode_roundtrip_witness :
    694 < 1024 ∧ decode (encode 694) = 694 :=
  ⟨by decide, decode_encode_roundtrip 694 (by decide)⟩

end StackCodec

/-! ## Voxel-matrix assembly (src/core/converter.py lines 962-985)

    bottom_voxels = np.transpose(best_stacks, (2, 0, 1))
    spacer_layers = max(1, int(round(spacer_thick / PrinterConfig.LAYER_HEIGHT)))
    if "双面" in structure_mode:
        top_voxels = np.transpose(best_stacks[..., ::-1], (2, 0, 1))
        total_layers = 5 + spacer_layers + 5
        full_matrix = np.full((total_layers, target_h, target_w), -1, dtype=int)
        full_matrix[0:5] = bottom_voxels
        spacer = np.full((target_h, target_w), -1, dtype=int)
        spacer[~mask_transparent] = 0
        for z in range(5, 5 + spacer_layers):
            full_matrix[z] = spacer
        full_matrix[5 + spacer_layers:] = top_voxels
    else:
        total_layers = 5 + spacer_layers
        ...
-/

namespace Converter

/-- `spacer = np.full(..., -1); spacer[~mask_transparent] = 0`: the spacer layer
holds 0 on opaque pixels and the sentinel -1 on transparent ones. -/
def spacerCell (maskTransparent : Nat → Nat → Bool) (y x : Nat) : Int :=
  if maskTransparent y x then -1 else 0

/-- `spacer_layers = max(1, int(round(spacer_thick / LAYER_HEIGHT)))`.
`spacer_thick / LAYER_HEIGHT` is float arithmetic; its rounded integer value is
taken here as the parameter `rounded`, so the statement covers every possible
float input. -/
def spacerLayers (rounded : Int) : Int :=
  max 1 rounded

/-- `total_layers = 5 + spacer_layers` (single-sided branch). -/
def totalLayersSingle (rounded : Int) : Int :=
  5 + spacerLayers rounded

/-- `total_layers = 5 + spacer_layers + 5` (double-sided branch). -/
def totalLayersDouble (rounded : Int) : Int :=
  5 + spacerLayers rounded + 5

/-- The double-sided `full_matrix` as a function of the layer index `z`:
layers `[0,5)` are the bottom color block `best_stacks[y,x,z]`, layers
`[5, 5+spacer)` are the spacer, and layers from `5+spacer` up hold
`top_voxels[k] = best_stacks[y, x, 4-k]` (the `[..., ::-1]` reversal). -/
def fullMatrixDouble (stk : Nat → Nat → Nat → Int)
    (maskTransparent : Nat → Nat → Bool) (spacer : Nat) (z y x : Nat) : Int :=
  if z < 5 then stk y x z
  else if z < 5 + spacer then spacerCell maskTransparent y x
  else stk y x (4 - (z - (5 + spacer)))

/-- Claim C5: in double-sided mode the 5 top color layers are the vertical
mirror of the 5 bottom color layers: for every pixel `(y, x)` and every
`k < 5`, `full_matrix[5 + spacer_layers + k, y, x] = full_matrix[4 - k, y, x]`. -/
theorem fullMatrixDouble_mirror (stk : Nat → Nat → Nat → Int)
    (maskTransparent : Nat → Nat → Bool) (spacer : Nat) (y x k : Nat)
    (hk : k < 5) :
    fullMatrixDouble stk maskTransparent spacer (5 + spacer + k) y x =
      fullMatrixDouble stk maskTransparent spacer (4 - k) y x := by
  unfold fullMatrixDouble
  have h1 : ¬ (5 + spacer + k < 5) := by omega
  have h2 : ¬ (5 + spacer + k < 5 + spacer) := by omega
  have h3 : 4 - k < 5 := by omega
  simp only [h1, h2, h3, if_true, if_false, if_neg, if_pos]
  congr 1
  omega

/-- Witness for C5 at concrete inputs. -/
theorem fullMatrixDouble_mirror_witness :
    3 < 5 ∧
      fullMatrixDouble (fun _ _ k => (k : Int)) (fun _ _ => false) 2 (5 + 2 + 3) 0 0 =
        fullMatrixDouble (fun _ _ k => (k : Int)) (fun _ _ => false) 2 (4 - 3) 0 0 :=
  ⟨by decide,
    fullMatrixDouble_mirror (fun _ _ k => (k : Int)) (fun _ _ => false) 2 0 0 3
      (by decide)⟩

/-- Claim C10: for every spacer-thickness input (every rounded value of
`spacer_thick / LAYER_HEIGHT`, including 0 and negatives), the spacer layer
count `max(1, round(...))` is at least 1, so the total layer count is at least
6 in single-sided mode and at least 11 in double-sided mode. -/
theorem spacerLayers_at_least_one (rounded : Int) :
    1 ≤ spacerLayers rounded ∧
      6 ≤ totalLayersSingle rounded ∧ 11 ≤ totalLayersDouble rounded := by
  unfold totalLayersSingle totalLayersDouble spacerLayers
  refine ⟨le_max_left 1 rounded, ?_, ?_⟩ <;>
    have := le_max_left 1 rounded <;> omega

end Converter

/-! ## 3MF object-name post-processing (src/utils/helpers.py lines 11-111)

`safe_fix_3mf_names` reads the `.model` XML out of the 3MF zip, finds every
`<object ...>` tag in order of appearance, assigns `slot_names[idx]` as the
`name` attribute of the idx-th object (objects past the end of the name list
are left alone), and — when more than one object exists — appends, just before
`</resources>` (i.e. after every object), one assembly object whose id is
`max(existing ids) + 1` with one `<component objectid=.../>` per original
object, and replaces the whole `<build>...</build>` section with a single
`<item>` referencing the assembly.  The XML is modelled structurally: an
object element carries its id, optional name and component references, a
document carries its ordered object list and build item list. -/

namespace Helpers

/-- One `<object id=... [name=...]>` element, with its `<component objectid=...>`
children (empty for plain mesh objects). -/
structure Obj where
  id : Nat
  name : Option String
  components : List Nat
deriving DecidableEq, Repr

/-- The `.model` document: the `<object>` elements in order of appearance in
the file, and the `objectid`s of the `<item>` elements of the `<build>`. -/
structure Model3mf where
  objects : List Obj
  buildItems : List Nat
deriving DecidableEq, Repr

/-- The renaming pass: the idx-th object (in order of appearance) gets
`name = slot_names[idx]`; when `real_idx >= len(slot_names)` the loop does
`continue`, leaving that object untouched. -/
def renameObjects : List String → List Obj → List Obj
  | _, [] => []
  | [], objs => objs
  | s :: rest, o :: objs => { o with name := some s } :: renameObjects rest objs

/-- `max_id = max(int(oid) for oid in object_ids)` (over the ids found; `0`
for an empty list, which the assembly branch never sees). -/
def maxObjectId (objs : List Obj) : Nat :=
  (objs.map Obj.id).foldl max 0

/-- `safe_fix_3mf_names` with `create_assembly=True` (its default, and how
every call site invokes it), on the structural document model. -/
def safeFix3mfNames (slotNames : List String) (doc : Model3mf) : Model3mf :=
  let objs := doc.objects
  let objectIds := objs.map Obj.id
  let named := renameObjects slotNames objs
  if 1 < objs.length then
    let assemblyId := maxObjectId objs + 1
    let assembly : Obj :=
      { id := assemblyId, name := some "Lumina_Model", components := objectIds }
    { objects := named ++ [assembly], buildItems := [assemblyId] }
  else
    { objects := named, buildItems := doc.buildItems }

theorem renameObjects_length (slotNames : List String) (objs : List Obj) :
    (renameObjects slotNames objs).length = objs.length := by
  induction objs generalizing slotNames with
  | nil => cases slotNames <;> rfl
  | cons o objs ih =>
    cases slotNames with
    | nil => rfl
    | cons s rest => simp [renameObjects, ih]

theorem renameObjects_id (slotNames : List String) (objs : List Obj) :
    (renameObjects slotNames objs).map Obj.id = objs.map Obj.id := by
  induction objs generalizing slotNames with
  | nil => cases slotNames <;> rfl
  | cons o objs ih =>
    cases slotNames with
    | nil => rfl
    | cons s rest => simp [renameObjects, ih]

theorem le_foldl_max (l : List Nat) (a : Nat) : a ≤ l.foldl max a := by
  induction l generalizing a with
  | nil => exact Nat.le_refl a
  | cons b l ih => exact le_trans (Nat.le_max_left a b) (ih (max a b))

theorem mem_le_foldl_max (l : List Nat) (a x : Nat) (hx : x ∈ l) :
    x ≤ l.foldl max a := by
  induction l generalizing a with
  | nil => cases hx
  | cons b l ih =>
    rcases List.mem_cons.mp hx with h | h
    · subst h
      exact le_trans (Nat.le_max_right a x) (le_foldl_max l (max a x))
    · exact ih (max a b) h

theorem mem_le_maxObjectId (objs : List Obj) (o : Obj) (ho : o ∈ objs) :
    o.id ≤ maxObjectId objs :=
  mem_le_foldl_max (objs.map Obj.id) 0 o.id (List.mem_map_of_mem Obj.id ho)

/-- Claim C6: when the document has more than one object, the post-processing
appends exactly one extra assembly object; its id is the maximum existing
object id plus one (hence larger than every existing id), it carries one
component reference per original object, in order, and the build section is
rewritten to reference only the assembly. -/
theorem safeFix3mfNames_assembly (slotNames : List String) (doc : Model3mf)
    (h : 1 < doc.objects.length) :
    (safeFix3mfNames slotNames doc).objects.length = doc.objects.length + 1 ∧
      ∃ assembly : Obj,
        (safeFix3mfNames slotNames doc).objects =
            renameObjects slotNames doc.objects ++ [assembly] ∧
          assembly.id = maxObjectId doc.objects + 1 ∧
          (∀ o ∈ doc.objects, o.id < assembly.id) ∧
          assembly.components = doc.objects.map Obj.id ∧
          (safeFix3mfNames slotNames doc).buildItems = [assembly.id] := by
  unfold safeFix3mfNames
  simp only [h, if_pos]
  refine ⟨by simp [renameObjects_length], ?_⟩
  refine ⟨_, rfl, rfl, ?_, rfl, rfl⟩
  intro o ho
  exact Nat.lt_succ_of_le (mem_le_maxObjectId doc.objects o ho)

/-- Witness for C6: a document holding two bare objects with ids 1 and 2. -/
theorem safeFix3mfNames_assembly_witness :
    1 < (Model3mf.mk [⟨1, none, []⟩, ⟨2, none, []⟩] [1, 2]).objects.length ∧
      ((safeFix3mfNames ["White", "Cyan"]
            (Model3mf.mk [⟨1, none, []⟩, ⟨2, none, []⟩] [1, 2])).objects.length =
          (Model3mf.mk [⟨1, none, []⟩, ⟨2, none, []⟩] [1, 2]).objects.length + 1 ∧
        ∃ assembly : Obj,
          (safeFix3mfNames ["White", "Cyan"]
                (Model3mf.mk [⟨1, none, []⟩, ⟨2, none, []⟩] [1, 2])).objects =
              renameObjects ["White", "Cyan"]
                  (Model3mf.mk [⟨1, none, []⟩, ⟨2, none, []⟩] [1, 2]).objects ++
                [assembly] ∧
            assembly.id =
              maxObjectId (Model3mf.mk [⟨1, none, []⟩, ⟨2, none, []⟩] [1, 2]).objects + 1 ∧
            (∀ o ∈ (Model3mf.mk [⟨1, none, []⟩, ⟨2, none, []⟩] [1, 2]).objects,
                o.id < assembly.id) ∧
            assembly.components =
              (Model3mf.mk [⟨1, none, []⟩, ⟨2, none, []⟩] [1, 2]).objects.map Obj.id ∧
            (safeFix3mfNames ["White", "Cyan"]
                (Model3mf.mk [⟨1, none, []⟩, ⟨2, none, []⟩] [1, 2])).buildItems =
              [assembly.id]) :=
  ⟨by decide,
    safeFix3mfNames_assembly ["White", "Cyan"]
      (Model3mf.mk [⟨1, none, []⟩, ⟨2, none, []⟩] [1, 2]) (by decide)⟩

/-- A two-object document together with the calibration board's four slot
names: a concrete run of the converter pipeline when only two of the four
material meshes are non-empty. -/
def demoDoc : Model3mf :=
  Model3mf.mk [⟨1, none, []⟩, ⟨2, none, []⟩] [1, 2]

def demoNames : List String :=
  ["White", "Cyan", "Magenta", "Yellow"]

/-- Counterexample to claim C7 as stated: running `safe_fix_3mf_names` twice
with the same name list does not reproduce the names of the single run.  On a
document with two objects and the standard four slot names, the first run
names the objects `White`, `Cyan` and appends an assembly named
`Lumina_Model`; the second run renames that assembly to `Magenta` and appends
a second assembly, so the name sequences of the two documents differ. -/
theorem safeFix3mfNames_not_idempotent :
    (safeFix3mfNames demoNames (safeFix3mfNames demoNames demoDoc)).objects.map Obj.name ≠
      (safeFix3mfNames demoNames demoDoc).objects.map Obj.name := by
  decide

theorem renameObjects_idem (slotNames : List String) (objs : List Obj) :
    renameObjects slotNames (renameObjects slotNames objs) =
      renameObjects slotNames objs := by
  induction objs generalizing slotNames with
  | nil => cases slotNames <;> rfl
  | cons o objs ih =>
    cases slotNames with
    | nil => rfl
    | cons s rest => simp [renameObjects, ih]

theorem renameObjects_nil_names (objs : List Obj) :
    renameObjects [] objs = objs := by
  cases objs <;> rfl

theorem renameObjects_append_left (slotNames : List String) (l1 l2 : List Obj) :
    (renameObjects slotNames (l1 ++ l2)).take l1.length =
      renameObjects slotNames l1 := by
  induction l1 generalizing slotNames with
  | nil => cases slotNames <;> rfl
  | cons o l1 ih =>
    cases slotNames with
    | nil =>
      rw [renameObjects_nil_names, renameObjects_nil_names]
      simp only [List.cons_append, List.length_cons, List.take_succ_cons, List.take_left]
    | cons s rest =>
      simp [renameObjects, ih]

/-- Claim C7 amended: the second run leaves the names of the ORIGINAL objects
(the ones present before any post-processing, in their order of appearance)
unchanged; it is not idempotent on the whole document, since each run appends
a further assembly object and the second run may rename the first run's
assembly when the name list is longer than the original object list. -/
theorem safeFix3mfNames_objects_shape (slotNames : List String) (doc : Model3mf) :
    ∃ extra : List Obj,
      (safeFix3mfNames slotNames doc).objects =
        renameObjects slotNames doc.objects ++ extra := by
  unfold safeFix3mfNames
  dsimp only
  split
  · exact ⟨_, rfl⟩
  · exact ⟨[], (List.append_nil _).symm⟩

theorem safeFix3mfNames_stable_on_originals (slotNames : List String)
    (doc : Model3mf) :
    ((safeFix3mfNames slotNames (safeFix3mfNames slotNames doc)).objects.take
          doc.objects.length).map Obj.name =
      ((safeFix3mfNames slotNames doc).objects.take doc.objects.length).map
        Obj.name := by
  have hnlen := renameObjects_length slotNames doc.objects
  have key : ∀ extra : List Obj,
      (renameObjects slotNames (renameObjects slotNames doc.objects ++ extra)).take
          doc.objects.length =
        renameObjects slotNames doc.objects := by
    intro extra
    have h1 := renameObjects_append_left slotNames
      (renameObjects slotNames doc.objects) extra
    rw [renameObjects_length] at h1
    rw [h1, renameObjects_idem]
  obtain ⟨extra, hextra⟩ := safeFix3mfNames_objects_shape slotNames doc
  have htake1 : (safeFix3mfNames slotNames doc).objects.take doc.objects.length =
      renameObjects slotNames doc.objects := by
    rw [hextra, List.take_append_of_le_length (by omega)]
    rw [show doc.objects.length = (renameObjects slotNames doc.objects).length from
      hnlen.symm, List.take_length]
  obtain ⟨extra2, hextra2⟩ :=
    safeFix3mfNames_objects_shape slotNames (safeFix3mfNames slotNames doc)
  have hlen2 : doc.objects.length ≤
      (renameObjects slotNames (renameObjects slotNames doc.objects ++ extra)).length := by
    rw [renameObjects_length, List.length_append]
    omega
  trans (renameObjects slotNames doc.objects).map Obj.name
  · rw [hextra2, hextra, List.take_append_of_le_length hlen2, key extra]
  · rw [htake1]

end Helpers

/-! ## Calibration-board corner markers vs extractor corner labels
(src/core/calibration.py lines 110-137, src/config.py lines 162-209,
src/core/extractor.py lines 56-96 and 127-140)

`generate_calibration_board` paints four single-material corner markers at the
four padding corners of the 34x34 grid, with a mode-specific material id per
corner.  During extraction, `run_extraction` maps the operator's 4 clicked
points, in collection order, to the top-left, top-right, bottom-right and
bottom-left of the canonical square, and the UI labels the k-th point with
`corner_labels` from `ColorSystem`.  Claim C4 is the coupling: the corner
material on the board equals the material of the color named by the label the
operator is shown for that same position. -/

namespace Calibration

inductive ColorMode where
  | CMYW
  | RYBW
deriving DecidableEq

/-- `grid_dim, padding = 32, 1`; `total_w = total_h = grid_dim + padding * 2`. -/
def gridDim : Nat := 32

def boardPadding : Nat := 1

def totalW : Nat := gridDim + boardPadding * 2

def totalH : Nat := gridDim + boardPadding * 2

inductive Corner where
  | TL
  | TR
  | BR
  | BL
deriving DecidableEq

/-- `run_extraction`'s `dst` square maps the clicked points, in order, to
top-left, top-right, bottom-right, bottom-left. -/
def clickOrder : List Corner :=
  [Corner.TL, Corner.TR, Corner.BR, Corner.BL]

/-- `ColorSystem.CMYW['corner_labels_en']` and
`ColorSystem.RYBW['corner_labels_en']`, with each label string broken into its
color word and its parenthesized position: CMYW is
`["White (TL)", "Cyan (TR)", "Magenta (BR)", "Yellow (BL)"]` and RYBW is
`["White (TL)", "Red (TR)", "Blue (BR)", "Yellow (BL)"]`.  The k-th label is
drawn next to the k-th clicked point (`draw_corner_points`), whose canonical
destination is the k-th entry of `clickOrder`. -/
def cornerLabelsEn : ColorMode → List (String × Corner)
  | ColorMode.CMYW =>
      [("White", Corner.TL), ("Cyan", Corner.TR), ("Magenta", Corner.BR),
        ("Yellow", Corner.BL)]
  | ColorMode.RYBW =>
      [("White", Corner.TL), ("Red", Corner.TR), ("Blue", Corner.BR),
        ("Yellow", Corner.BL)]

/-- `ColorSystem.CMYW['map']` / `ColorSystem.RYBW['map']`: color name to
material slot id. -/
def colorMap : ColorMode → List (String × Nat)
  | ColorMode.CMYW => [("White", 0), ("Cyan", 1), ("Magenta", 2), ("Yellow", 3)]
  | ColorMode.RYBW => [("White", 0), ("Red", 1), ("Yellow", 2), ("Blue", 3)]

/-- The `corners` lists of `generate_calibration_board`, as
`(row, col, mat_id)` triples (`row=0` top, `col=0` left). -/
def boardCorners : ColorMode → List (Nat × Nat × Nat)
  | ColorMode.RYBW =>
      [(0, 0, 0), (0, totalW - 1, 1), (totalH - 1, totalW - 1, 3), (totalH - 1, 0, 2)]
  | ColorMode.CMYW =>
      [(0, 0, 0), (0, totalW - 1, 1), (totalH - 1, totalW - 1, 2), (totalH - 1, 0, 3)]

/-- The `(row, col)` grid coordinates of each corner position of the board. -/
def cornerCoord : Corner → Nat × Nat
  | Corner.TL => (0, 0)
  | Corner.TR => (0, totalW - 1)
  | Corner.BR => (totalH - 1, totalW - 1)
  | Corner.BL => (totalH - 1, 0)

/-- The material id the calibration board paints at a given corner position. -/
def boardCornerMaterial (mode : ColorMode) (k : Corner) : Option Nat :=
  ((boardCorners mode).find? fun t =>
      decide ((t.1, t.2.1) = cornerCoord k)).map fun t => t.2.2

/-- The color name that the extractor's point-numbering UI instructs the
operator to click at a given corner position: the color word of the label
shown for the click whose canonical destination is that corner. -/
def labelColorAt (mode : ColorMode) (k : Corner) : Option String :=
  ((cornerLabelsEn mode).find? fun p => decide (p.2 = k)).map fun p => p.1

/-- Claim C4: for both supported color modes and each of the four corner
positions, the material id that `generate_calibration_board` assigns to that
corner equals the material of the color that the extractor's corner labels
instruct the operator to click at the same position (CMYW: TL=White, TR=Cyan,
BR=Magenta, BL=Yellow; RYBW: TL=White, TR=Red, BR=Blue, BL=Yellow). -/
theorem board_corner_matches_extractor_label (mode : ColorMode) (k : Corner) :
    boardCornerMaterial mode k =
      (labelColorAt mode k).bind fun c => (colorMap mode).lookup c := by
  cases mode <;> cases k <;> rfl

end Calibration

/-! ## Color extraction (src/core/extractor.py lines 127-237) -/

/-- A device RGB triple, each channel in `[0, 256)`. -/
abbrev DeviceRGB := Nat × Nat × Nat

namespace Extractor

/-- Return value of `run_extraction` as the caller sees it: the saved LUT file
(`None` on the error paths, which return before `np.save` runs) and the status
message. -/
structure ExtractionOutcome where
  lutFile : Option (List (List DeviceRGB))
  message : String

/-- The sampling double loop `for r in range(32): for c in range(32)` that
fills `extracted = np.zeros((DATA_GRID_SIZE, DATA_GRID_SIZE, 3))`; the per-cell
averaged color (perspective warp, optional white balance and brightness
correction, barrel-corrected cell center, 8x8 neighborhood mean — all OpenCV
float pipeline) is abstracted as the function `sample`. -/
def extractGrid (sample : Nat → Nat → DeviceRGB) : List (List DeviceRGB) :=
  (List.range 32).map fun r => (List.range 32).map fun c => sample r c

/-- `run_extraction(img, points, ...)`: fail fast when no image was uploaded,
then when the collected corner points are not exactly 4; otherwise warp,
sample the 32x32 grid and save it as the LUT. -/
def runExtraction {Img : Type} (img : Option Img) (points : List (Int × Int))
    (sample : Img → List (Int × Int) → Nat → Nat → DeviceRGB) :
    ExtractionOutcome :=
  match img with
  | none => { lutFile := none, message := "missing input image" }
  | some im =>
    if points.length ≠ 4 then
      { lutFile := none, message := "need 4 corner points" }
    else
      { lutFile := some (extractGrid (sample im points)),
        message := "extraction complete, LUT saved" }

/-- Claim C8: `run_extraction` fails, writing no LUT, when no input image is
supplied or when fewer than 4 corner points have been collected; given an
image and exactly 4 corner points it samples and saves a 32x32(x3) LUT. -/
theorem runExtraction_contract (Img : Type) (points : List (Int × Int))
    (sample : Img → List (Int × Int) → Nat → Nat → DeviceRGB) :
    (runExtraction (none : Option Img) points sample).lutFile = none ∧
      (∀ im : Img, points.length < 4 →
        (runExtraction (some im) points sample).lutFile = none) ∧
      (∀ im : Img, points.length = 4 →
        ∃ grid, (runExtraction (some im) points sample).lutFile = some grid ∧
          grid.length = 32 ∧ ∀ row ∈ grid, row.length = 32) := by
  refine ⟨rfl, ?_, ?_⟩
  · intro im hlt
    have hne : points.length ≠ 4 := by omega
    simp [runExtraction, hne]
  · intro im heq
    have hne : ¬ points.length ≠ 4 := by omega
    refine ⟨extractGrid (sample im points), ?_, ?_, ?_⟩
    · simp [runExtraction, hne]
    · simp [extractGrid]
    · intro row hrow
      simp only [extractGrid, List.mem_map] at hrow
      obtain ⟨r, -, hr⟩ := hrow
      simp [hr.symm]

/-- Witness for C8: no image; an image with 0 points; an image with 4 points. -/
theorem runExtraction_contract_witness :
    (runExtraction (none : Option Unit) [] fun _ _ _ _ => (0, 0, 0)).lutFile = none ∧
      (([] : List (Int × Int)).length < 4 ∧
        (runExtraction (some ()) [] fun _ _ _ _ => (0, 0, 0)).lutFile = none) ∧
      (([(0, 0), (0, 1), (1, 1), (1, 0)] : List (Int × Int)).length = 4 ∧
        ∃ grid,
          (runExtraction (some ()) [(0, 0), (0, 1), (1, 1), (1, 0)]
                fun _ _ _ _ => (0, 0, 0)).lutFile = some grid ∧
            grid.length = 32 ∧ ∀ row ∈ grid, row.length = 32) :=
  ⟨(runExtraction_contract Unit [] fun _ _ _ _ => (0, 0, 0)).1,
    ⟨by decide,
      (runExtraction_contract Unit [] fun _ _ _ _ => (0, 0, 0)).2.1 () (by decide)⟩,
    ⟨by decide,
      (runExtraction_contract Unit [(0, 0), (0, 1), (1, 1), (1, 0)]
            fun _ _ _ _ => (0, 0, 0)).2.2 () (by decide)⟩⟩

/-- Read LUT cell `(r, c)` out of the saved 32x32 grid (`lut[r, c]`). -/
def lutCell (lut : List (List DeviceRGB)) (r c : Nat) : DeviceRGB :=
  (lut.getD r []).getD c (0, 0, 0)

/-- `manual_fix_cell`'s mutation `lut[r, c] = new_color; np.save(...)`.
`newColor` is the RGB triple parsed from the color-input string (the
`rgb(...)`, `#hex` and bare-hex branches); on an unparseable string the
function raises before writing, so only the parsed-value case reaches the
store. -/
def manualFixCell (lut : List (List DeviceRGB)) (r c : Nat)
    (newColor : DeviceRGB) : List (List DeviceRGB) :=
  lut.set r ((lut.getD r []).set c newColor)

theorem getD_set_self {α : Type} (l : List α) (i : Nat) (a d : α)
    (h : i < l.length) : (l.set i a).getD i d = a := by
  induction l generalizing i with
  | nil => simp at h
  | cons b l ih =>
    cases i with
    | zero => rfl
    | succ i =>
      simp only [List.set, List.getD, List.getElem?_cons_succ]
      have := ih i (by simpa using h)
      simpa [List.getD] using this

theorem getD_set_ne {α : Type} (l : List α) (i j : Nat) (a d : α)
    (h : i ≠ j) : (l.set i a).getD j d = l.getD j d := by
  induction l generalizing i j with
  | nil => simp [List.set]
  | cons b l ih =>
    cases i with
    | zero =>
      cases j with
      | zero => exact absurd rfl h
      | succ j => rfl
    | succ i =>
      cases j with
      | zero => rfl
      | succ j =>
        simp only [List.set, List.getD, List.getElem?_cons_succ]
        have := ih i j (fun hij => h (by rw [hij]))
        simpa [List.getD] using this

/-- Claim C9: `manual_fix_cell` at `(r, c)` with a parseable color value sets
exactly cell `(r, c)` to the parsed RGB value and leaves every other cell of
the LUT unchanged (no re-validation of the remaining entries). -/
theorem manualFixCell_frame (lut : List (List DeviceRGB)) (r c : Nat)
    (newColor : DeviceRGB) (hr : r < lut.length)
    (hc : c < (lut.getD r []).length) :
    lutCell (manualFixCell lut r c newColor) r c = newColor ∧
      ∀ y x, y ≠ r ∨ x ≠ c →
        lutCell (manualFixCell lut r c newColor) y x = lutCell lut y x := by
  constructor
  · unfold lutCell manualFixCell
    rw [getD_set_self lut r _ [] hr, getD_set_self _ c _ _ hc]
  · intro y x hyx
    unfold lutCell manualFixCell
    by_cases hy : y = r
    · subst hy
      have hx : x ≠ c := hyx.resolve_left (fun h => h rfl)
      rw [getD_set_self lut y _ [] hr, getD_set_ne _ c x _ _ (fun h => hx h.symm)]
    · rw [getD_set_ne lut r y _ _ (fun h => hy h.symm)]

/-- Witness for C9 on a concrete 2x2 grid at cell (0, 1). -/
theorem manualFixCell_frame_witness :
    0 < ([[(1, 1, 1), (2, 2, 2)], [(3, 3, 3), (4, 4, 4)]] :
          List (List DeviceRGB)).length ∧
      1 < (([[(1, 1, 1), (2, 2, 2)], [(3, 3, 3), (4, 4, 4)]] :
            List (List DeviceRGB)).getD 0 []).length ∧
      (lutCell (manualFixCell [[(1, 1, 1), (2, 2, 2)], [(3, 3, 3), (4, 4, 4)]]
            0 1 (9, 9, 9)) 0 1 = (9, 9, 9) ∧
        ∀ y x, y ≠ 0 ∨ x ≠ 1 →
          lutCell (manualFixCell [[(1, 1, 1), (2, 2, 2)], [(3, 3, 3), (4, 4, 4)]]
              0 1 (9, 9, 9)) y x =
            lutCell [[(1, 1, 1), (2, 2, 2)], [(3, 3, 3), (4, 4, 4)]] y x) :=
  ⟨by decide, by decide,
    manualFixCell_frame [[(1, 1, 1), (2, 2, 2)], [(3, 3, 3), (4, 4, 4)]] 0 1
      (9, 9, 9) (by decide) (by decide)⟩

end Extractor

/-! ## ColorMatcher (src/core/converter.py lines 214-244 and 745-850)

`load_calibrated_lut` flattens the 32x32x3 LUT array row-major
(`measured_colors = lut_grid.reshape(-1, 3)`, so StackIndex `i = row*32+col`),
then for each `i in range(1024)` drops the entry when its measured color is
within Euclidean distance 60 of the reference `base_blue = [30, 100, 200]`
while its stack does not contain material 3; the survivors feed
`KDTree(lut_rgb)`, and `tree.query(rgb)` resolves a query to the nearest
surviving entry (`matched = lut_rgb[idx]`, `stack = ref_stacks[idx]`),
deterministic first-index tie-breaking.  The flattened LUT is modelled as a
function from the index to the measured `DeviceRGB`; `dist < 60` on the float
norm of integer channels is exactly `squared distance < 3600`. -/

namespace ColorMatcher

def baseBlue : DeviceRGB := (30, 100, 200)

/-- Squared Euclidean distance in RGB space; comparisons of `np.linalg.norm`
on integer-valued channels coincide with comparisons of this integer. -/
def d2 (a b : DeviceRGB) : Int :=
  ((a.1 : Int) - b.1) ^ 2 + ((a.2.1 : Int) - b.2.1) ^ 2 +
    ((a.2.2 : Int) - b.2.2) ^ 2

/-- The validated `(valid_rgb, valid_stacks)` pairs of `load_calibrated_lut`,
in index order: entry `i` is dropped exactly when
`dist(real_rgb, base_blue) < 60 and 3 not in stack`. -/
def validEntries (lut : Nat → DeviceRGB) : List (DeviceRGB × List Nat) :=
  (List.range 1024).filterMap fun i =>
    if d2 (lut i) baseBlue < 3600 ∧ 3 ∉ StackCodec.encode i then none
    else some (lut i, StackCodec.encode i)

/-- Left-to-right argmin scan with strict comparison: the first entry at
minimal distance wins, matching the deterministic index-order tie-break of
the nearest-neighbor index. -/
def nearestAux (q : DeviceRGB) :
    DeviceRGB × List Nat → List (DeviceRGB × List Nat) → DeviceRGB × List Nat
  | best, [] => best
  | best, e :: rest =>
      if d2 e.1 q < d2 best.1 q then nearestAux q e rest
      else nearestAux q best rest

def nearest (entries : List (DeviceRGB × List Nat)) (q : DeviceRGB) :
    Option (DeviceRGB × List Nat) :=
  match entries with
  | [] => none
  | e :: rest => some (nearestAux q e rest)

/-- `tree.query(rgb)` followed by `lut_rgb[idx], ref_stacks[idx]`: the
measured color and stack of the nearest surviving LUT entry. -/
def matchColor (lut : Nat → DeviceRGB) (q : DeviceRGB) :
    Option (DeviceRGB × List Nat) :=
  nearest (validEntries lut) q

theorem d2_self (a : DeviceRGB) : d2 a a = 0 := by
  unfold d2
  ring

theorem d2_nonneg (a b : DeviceRGB) : 0 ≤ d2 a b := by
  unfold d2
  positivity

theorem d2_eq_zero (a b : DeviceRGB) (h : d2 a b = 0) : a = b := by
  obtain ⟨a1, a2, a3⟩ := a
  obtain ⟨b1, b2, b3⟩ := b
  simp only [d2] at h
  have s1 := sq_nonneg ((a1 : Int) - b1)
  have s2 := sq_nonneg ((a2 : Int) - b2)
  have s3 := sq_nonneg ((a3 : Int) - b3)
  have h1 : ((a1 : Int) - b1) ^ 2 = 0 := by nlinarith
  have h2 : ((a2 : Int) - b2) ^ 2 = 0 := by nlinarith
  have h3 : ((a3 : Int) - b3) ^ 2 = 0 := by nlinarith
  have e1 : (a1 : Int) = b1 := by
    have := sq_eq_zero_iff.mp h1
    omega
  have e2 : (a2 : Int) = b2 := by
    have := sq_eq_zero_iff.mp h2
    omega
  have e3 : (a3 : Int) = b3 := by
    have := sq_eq_zero_iff.mp h3
    omega
  simp only [Prod.mk.injEq]
  omega

theorem nearestAux_mem (q : DeviceRGB) :
    ∀ (rest : List (DeviceRGB × List Nat)) (best : DeviceRGB × List Nat),
      nearestAux q best rest = best ∨ nearestAux q best rest ∈ rest := by
  intro rest
  induction rest with
  | nil => intro best; exact Or.inl rfl
  | cons e l ih =>
    intro best
    simp only [nearestAux]
    split
    · rcases ih e with h | h
      · refine Or.inr ?_
        rw [h]
        exact List.mem_cons_self e l
      · exact Or.inr (List.mem_cons_of_mem e h)
    · rcases ih best with h | h
      · exact Or.inl h
      · exact Or.inr (List.mem_cons_of_mem e h)

theorem nearestAux_le_best (q : DeviceRGB) :
    ∀ (rest : List (DeviceRGB × List Nat)) (best : DeviceRGB × List Nat),
      d2 (nearestAux q best rest).1 q ≤ d2 best.1 q := by
  intro rest
  induction rest with
  | nil => intro best; exact le_refl _
  | cons e l ih =>
    intro best
    simp only [nearestAux]
    split
    · exact le_trans (ih e) (le_of_lt (by assumption))
    · exact ih best

theorem nearestAux_le_mem (q : DeviceRGB) :
    ∀ (rest : List (DeviceRGB × List Nat)) (best e : DeviceRGB × List Nat),
      e ∈ rest → d2 (nearestAux q best rest).1 q ≤ d2 e.1 q := by
  intro rest
  induction rest with
  | nil => intro best e he; cases he
  | cons a l ih =>
    intro best e he
    simp only [nearestAux]
    rcases List.mem_cons.mp he with h | h
    · subst h
      split
      · exact nearestAux_le_best q l e
      · exact le_trans (nearestAux_le_best q l best) (le_of_not_lt (by assumption))
    · split
      · exact ih a e h
      · exact ih best e h

/-- Claim C3 amended: for every LUT and every entry that SURVIVES the
`base_blue` validation filter, if the entry's measured color is the color of
no other surviving stack, then matching a query equal to that measured color
returns exactly that entry's stack together with the measured color itself (an
exact nearest-neighbor hit at distance 0).  As stated (for every LUT entry),
the claim fails, because filtered-out entries are not in the index — see the
counterexample. -/
theorem matchColor_exact_hit (lut : Nat → DeviceRGB) (i : Nat)
    (hmem : (lut i, StackCodec.encode i) ∈ validEntries lut)
    (huniq : ∀ e ∈ validEntries lut, e.1 = lut i → e.2 = StackCodec.encode i) :
    matchColor lut (lut i) = some (lut i, StackCodec.encode i) := by
  unfold matchColor
  obtain ⟨e0, rest, hcons⟩ :
      ∃ e0 rest, validEntries lut = e0 :: rest := by
    cases h : validEntries lut with
    | nil => rw [h] at hmem; cases hmem
    | cons a l => exact ⟨a, l, rfl⟩
  rw [hcons]
  simp only [nearest, Option.some.injEq]
  have hrmem : nearestAux (lut i) e0 rest ∈ validEntries lut := by
    rw [hcons]
    rcases nearestAux_mem (lut i) rest e0 with h | h
    · rw [h]
      exact List.mem_cons_self e0 rest
    · exact List.mem_cons_of_mem e0 h
  have hle : d2 (nearestAux (lut i) e0 rest).1 (lut i) ≤ 0 := by
    have hm : (lut i, StackCodec.encode i) ∈ e0 :: rest := hcons ▸ hmem
    rcases List.mem_cons.mp hm with h | h
    · calc d2 (nearestAux (lut i) e0 rest).1 (lut i) ≤ d2 e0.1 (lut i) :=
            nearestAux_le_best (lut i) rest e0
        _ = 0 := by rw [← h]; exact d2_self _
    · calc d2 (nearestAux (lut i) e0 rest).1 (lut i) ≤
            d2 (lut i, StackCodec.encode i).1 (lut i) :=
            nearestAux_le_mem (lut i) rest e0 _ h
        _ = 0 := d2_self _
  have h0 : d2 (nearestAux (lut i) e0 rest).1 (lut i) = 0 :=
    le_antisymm hle (d2_nonneg _ _)
  have hfst : (nearestAux (lut i) e0 rest).1 = lut i := d2_eq_zero _ _ h0
  have hsnd : (nearestAux (lut i) e0 rest).2 = StackCodec.encode i :=
    huniq _ hrmem hfst
  exact Prod.ext hfst hsnd

/-- Membership in the validated entry list, unfolded: an entry comes from
some index `i < 1024` that the filter kept. -/
theorem mem_validEntries (lut : Nat → DeviceRGB) (e : DeviceRGB × List Nat) :
    e ∈ validEntries lut ↔
      ∃ i, i < 1024 ∧
        ¬ (d2 (lut i) baseBlue < 3600 ∧ 3 ∉ StackCodec.encode i) ∧
        e = (lut i, StackCodec.encode i) := by
  unfold validEntries
  rw [List.mem_filterMap]
  constructor
  · rintro ⟨i, hi, hf⟩
    rw [List.mem_range] at hi
    by_cases hc : d2 (lut i) baseBlue < 3600 ∧ 3 ∉ StackCodec.encode i
    · rw [if_pos hc] at hf
      cases hf
    · rw [if_neg hc] at hf
      exact ⟨i, hi, hc, (Option.some.injEq _ _ ▸ hf).symm⟩
  · rintro ⟨i, hi, hc, he⟩
    refine ⟨i, List.mem_range.mpr hi, ?_⟩
    rw [if_neg hc, he]

/-- A LUT whose 1024 measured colors are pairwise distinct and all far from
`base_blue`, so every entry survives validation. -/
def goodLut : Nat → DeviceRGB := fun i => (i / 32, i % 32, 255)

theorem goodLut_mem : (goodLut 5, StackCodec.encode 5) ∈ validEntries goodLut := by
  rw [mem_validEntries]
  refine ⟨5, by decide, ?_, rfl⟩
  decide

theorem goodLut_uniq :
    ∀ e ∈ validEntries goodLut,
      e.1 = goodLut 5 → e.2 = StackCodec.encode 5 := by
  intro e he h1
  obtain ⟨i, hi, -, he'⟩ := (mem_validEntries goodLut e).mp he
  subst he'
  have h5 : i = 5 := by
    have hfst : goodLut i = goodLut 5 := h1
    unfold goodLut at hfst
    simp only [Prod.mk.injEq] at hfst
    omega
  rw [h5]

/-- Witness for the amended C3 at entry 5 of `goodLut`. -/
theorem matchColor_exact_hit_witness :
    ((goodLut 5, StackCodec.encode 5) ∈ validEntries goodLut ∧
        ∀ e ∈ validEntries goodLut,
          e.1 = goodLut 5 → e.2 = StackCodec.encode 5) ∧
      matchColor goodLut (goodLut 5) = some (goodLut 5, StackCodec.encode 5) :=
  ⟨⟨goodLut_mem, goodLut_uniq⟩,
    matchColor_exact_hit goodLut 5 goodLut_mem goodLut_uniq⟩

/-- A valid (parseable, 32x32x3) LUT whose entry 0 measures exactly
`base_blue` while its stack `[0,0,0,0,0]` contains no material 3, so the
validation filter drops it; every other entry measures `(255,255,255)`. -/
def badLut : Nat → DeviceRGB := fun i => if i = 0 then (30, 100, 200) else (255, 255, 255)

theorem badLut_valid_white :
    ∀ e ∈ validEntries badLut, e.1 = (255, 255, 255) := by
  intro e he
  obtain ⟨i, hi, hc, he'⟩ := (mem_validEntries badLut e).mp he
  subst he'
  by_cases h0 : i = 0
  · exfalso
    apply hc
    subst h0
    decide
  · show badLut i = (255, 255, 255)
    unfold badLut
    rw [if_neg h0]

/-- Counterexample to claim C3 as stated: entry 0 of `badLut` measures
`(30,100,200)`, but the validation filter drops it (its color is within
distance 60 of `base_blue` and its stack `[0,0,0,0,0]` has no material 3), so
querying the matcher with exactly that measured color does NOT return entry
0's stack: every result the matcher can return carries the measured color
`(255,255,255)` of some other entry, at nonzero distance from the query. -/
theorem matchColor_filtered_entry_mismatch :
    matchColor badLut (badLut 0) ≠ some (badLut 0, StackCodec.encode 0) ∧
      ∃ e, matchColor badLut (badLut 0) = some e ∧ e.1 = (255, 255, 255) := by
  have hmem1 : ((255, 255, 255), StackCodec.encode 1) ∈ validEntries badLut := by
    rw [mem_validEntries]
    exact ⟨1, by decide, by decide, by decide⟩
  obtain ⟨e0, rest, hcons⟩ :
      ∃ e0 rest, validEntries badLut = e0 :: rest := by
    cases h : validEntries badLut with
    | nil => rw [h] at hmem1; cases hmem1
    | cons a l => exact ⟨a, l, rfl⟩
  have hres : matchColor badLut (badLut 0) =
      some (nearestAux (badLut 0) e0 rest) := by
    unfold matchColor
    rw [hcons]
    rfl
  have hresmem : nearestAux (badLut 0) e0 rest ∈ validEntries badLut := by
    rw [hcons]
    rcases nearestAux_mem (badLut 0) rest e0 with h | h
    · rw [h]
      exact List.mem_cons_self e0 rest
    · exact List.mem_cons_of_mem e0 h
  have hwhite : (nearestAux (badLut 0) e0 rest).1 = (255, 255, 255) :=
    badLut_valid_white _ hresmem
  constructor
  · intro heq
    rw [hres] at heq
    have : (nearestAux (badLut 0) e0 rest) = (badLut 0, StackCodec.encode 0) :=
      Option.some.injEq _ _ ▸ heq
    rw [this] at hwhite
    exact absurd hwhite (by decide)
  · exact ⟨nearestAux (badLut 0) e0 rest, hres, hwhite⟩

end ColorMatcher

/-! ## Greedy rectangle merge (src/core/mesh_generators.py lines 178-238)

`HighFidelityMesher._greedy_rect_merge(mask, height_px)` scans the boolean
mask row-major; at each `True` pixel not yet covered it expands right while
pixels stay `True` and uncovered, then expands down while the whole current
width stays `True` and uncovered, marks the rectangle as processed, records
`(x, y, x_end, y_end)` (half-open, emitted as floats of these integers) and
resumes the scan at `x_end`.  The mask is embedded as a `Bool`-valued
function on `(row, column)` together with its height `hgt` and width `w`;
the `processed` array is a `Bool`-valued function updated functionally. -/

namespace Mesher

/-- `x_end = x + 1; while x_end < w and mask[y, x_end] and not processed[y, x_end]: x_end += 1`. -/
def expandRight (mask proc : Nat → Nat → Bool) (y w xe : Nat) : Nat :=
  if h : xe < w ∧ mask y xe = true ∧ proc y xe = false then
    expandRight mask proc y w (xe + 1)
  else xe
termination_by w - xe
decreasing_by
  obtain ⟨h1, -, -⟩ := h
  omega

/-- The `row_valid` inner loop: every column of `[x, x_end)` in row `yRow` is
`True` and unprocessed. -/
def rowValid (mask proc : Nat → Nat → Bool) (x xe yRow : Nat) : Bool :=
  (List.range' x (xe - x)).all fun xi => mask yRow xi && !proc yRow xi

/-- `y_end = y + 1; while y_end < h: (check whole row segment) ... y_end += 1`. -/
def expandDown (mask proc : Nat → Nat → Bool) (x xe hgt ye : Nat) : Nat :=
  if h : ye < hgt ∧ rowValid mask proc x xe ye = true then
    expandDown mask proc x xe hgt (ye + 1)
  else ye
termination_by hgt - ye
decreasing_by
  obtain ⟨h1, -⟩ := h
  omega

/-- A recorded rectangle `(x0, y0, x1, y1)`, half-open in both axes.  The
Python code emits `(float(x), float(y), float(x_end), float(y_end))`; the
coordinates are the same integers. -/
structure Rect where
  x0 : Nat
  y0 : Nat
  x1 : Nat
  y1 : Nat
deriving DecidableEq, Repr

/-- Cell `(y, x)` lies inside rectangle `r`. -/
def inRect (r : Rect) (y x : Nat) : Prop :=
  r.y0 ≤ y ∧ y < r.y1 ∧ r.x0 ≤ x ∧ x < r.x1

theorem inRect_mk (x0 y0 x1 y1 yy xx : Nat) :
    inRect ⟨x0, y0, x1, y1⟩ yy xx ↔ y0 ≤ yy ∧ yy < y1 ∧ x0 ≤ xx ∧ xx < x1 :=
  Iff.rfl

/-- `processed[y:y_end, x:x_end] = True` as a functional update. -/
def markRect (proc : Nat → Nat → Bool) (x y xe ye : Nat) : Nat → Nat → Bool :=
  fun yy xx =>
    proc yy xx ||
      (decide (y ≤ yy) && decide (yy < ye) && decide (x ≤ xx) && decide (xx < xe))

theorem expandRight_spec (mask proc : Nat → Nat → Bool) (y w : Nat) :
    ∀ n xe, w - xe ≤ n →
      xe ≤ expandRight mask proc y w xe ∧
        (xe ≤ w → expandRight mask proc y w xe ≤ w) ∧
        ∀ xi, xe ≤ xi → xi < expandRight mask proc y w xe →
          mask y xi = true ∧ proc y xi = false := by
  intro n
  induction n with
  | zero =>
    intro xe hle
    rw [expandRight]
    have hcond : ¬ (xe < w ∧ mask y xe = true ∧ proc y xe = false) := by
      rintro ⟨h1, -, -⟩
      omega
    rw [dif_neg hcond]
    exact ⟨le_refl xe, fun h => h, fun xi h1 h2 => absurd h2 (by omega)⟩
  | succ n ih =>
    intro xe hle
    rw [expandRight]
    by_cases hcond : xe < w ∧ mask y xe = true ∧ proc y xe = false
    · rw [dif_pos hcond]
      obtain ⟨h1, h2, h3⟩ := hcond
      obtain ⟨ih1, ih2, ih3⟩ := ih (xe + 1) (by omega)
      refine ⟨by omega, fun _ => ih2 (by omega), ?_⟩
      intro xi hxi1 hxi2
      rcases Nat.eq_or_lt_of_le hxi1 with he | hlt
      · rw [← he]
        exact ⟨h2, h3⟩
      · exact ih3 xi hlt hxi2
    · rw [dif_neg hcond]
      exact ⟨le_refl xe, fun h => h, fun xi h1 h2 => absurd h2 (by omega)⟩

theorem expandRight_props (mask proc : Nat → Nat → Bool) (y w xe : Nat) :
    xe ≤ expandRight mask proc y w xe ∧
      (xe ≤ w → expandRight mask proc y w xe ≤ w) ∧
      ∀ xi, xe ≤ xi → xi < expandRight mask proc y w xe →
        mask y xi = true ∧ proc y xi = false :=
  expandRight_spec mask proc y w (w - xe) xe (le_refl _)

theorem le_expandRight (mask proc : Nat → Nat → Bool) (y w xe : Nat) :
    xe ≤ expandRight mask proc y w xe :=
  (expandRight_props mask proc y w xe).1

theorem expandDown_spec (mask proc : Nat → Nat → Bool) (x xe hgt : Nat) :
    ∀ n ye, hgt - ye ≤ n →
      ye ≤ expandDown mask proc x xe hgt ye ∧
        (ye ≤ hgt → expandDown mask proc x xe hgt ye ≤ hgt) ∧
        ∀ yy, ye ≤ yy → yy < expandDown mask proc x xe hgt ye →
          rowValid mask proc x xe yy = true := by
  intro n
  induction n with
  | zero =>
    intro ye hle
    rw [expandDown]
    have hcond : ¬ (ye < hgt ∧ rowValid mask proc x xe ye = true) := by
      rintro ⟨h1, -⟩
      omega
    rw [dif_neg hcond]
    exact ⟨le_refl ye, fun h => h, fun yy h1 h2 => absurd h2 (by omega)⟩
  | succ n ih =>
    intro ye hle
    rw [expandDown]
    by_cases hcond : ye < hgt ∧ rowValid mask proc x xe ye = true
    · rw [dif_pos hcond]
      obtain ⟨h1, h2⟩ := hcond
      obtain ⟨ih1, ih2, ih3⟩ := ih (ye + 1) (by omega)
      refine ⟨by omega, fun _ => ih2 (by omega), ?_⟩
      intro yy hyy1 hyy2
      rcases Nat.eq_or_lt_of_le hyy1 with he | hlt
      · rw [← he]
        exact h2
      · exact ih3 yy hlt hyy2
    · rw [dif_neg hcond]
      exact ⟨le_refl ye, fun h => h, fun yy h1 h2 => absurd h2 (by omega)⟩

theorem expandDown_props (mask proc : Nat → Nat → Bool) (x xe hgt ye : Nat) :
    ye ≤ expandDown mask proc x xe hgt ye ∧
      (ye ≤ hgt → expandDown mask proc x xe hgt ye ≤ hgt) ∧
      ∀ yy, ye ≤ yy → yy < expandDown mask proc x xe hgt ye →
        rowValid mask proc x xe yy = true :=
  expandDown_spec mask proc x xe hgt (hgt - ye) ye (le_refl _)

theorem rowValid_iff (mask proc : Nat → Nat → Bool) (x xe yRow : Nat) :
    rowValid mask proc x xe yRow = true ↔
      ∀ xi, x ≤ xi → xi < xe →
        mask yRow xi = true ∧ proc yRow xi = false := by
  unfold rowValid
  rw [List.all_eq_true]
  constructor
  · intro h xi h1 h2
    have hmem : xi ∈ List.range' x (xe - x) := by
      rw [List.mem_range'_1]
      omega
    have := h xi hmem
    simp only [Bool.and_eq_true, Bool.not_eq_true'] at this
    exact this
  · intro h xi hmem
    rw [List.mem_range'_1] at hmem
    have := h xi hmem.1 (by omega)
    simp only [Bool.and_eq_true, Bool.not_eq_true']
    exact this

theorem markRect_true_iff (proc : Nat → Nat → Bool) (x y xe ye yy xx : Nat) :
    markRect proc x y xe ye yy xx = true ↔
      proc yy xx = true ∨ inRect ⟨x, y, xe, ye⟩ yy xx := by
  simp [markRect, inRect, and_assoc]

theorem markRect_mono (proc : Nat → Nat → Bool) (x y xe ye yy xx : Nat)
    (h : proc yy xx = true) : markRect proc x y xe ye yy xx = true := by
  simp [markRect, h]

end Mesher

namespace Mesher

/-- The inner `while x < w` loop of `_greedy_rect_merge` for one row `y`: skip
cells that are `False` or already processed; at a valid start cell expand
right, expand down, mark the rectangle processed, record it, and resume at
`x_end`. -/
def scanRow (mask : Nat → Nat → Bool) (w hgt y x : Nat) (proc : Nat → Nat → Bool)
    (rects : List Rect) : (Nat → Nat → Bool) × List Rect :=
  if hx : x < w then
    if hs : mask y x = true ∧ proc y x = false then
      scanRow mask w hgt y (expandRight mask proc y w (x + 1))
        (markRect proc x y (expandRight mask proc y w (x + 1))
          (expandDown mask proc x (expandRight mask proc y w (x + 1)) hgt (y + 1)))
        (rects ++ [⟨x, y, expandRight mask proc y w (x + 1),
          expandDown mask proc x (expandRight mask proc y w (x + 1)) hgt (y + 1)⟩])
    else
      scanRow mask w hgt y (x + 1) proc rects
  else
    (proc, rects)
termination_by w - x
decreasing_by
  · have := le_expandRight mask proc y w (x + 1)
    omega
  · omega

/-- The outer `for y in range(h)` loop. -/
def scanRows (mask : Nat → Nat → Bool) (w hgt y : Nat) (proc : Nat → Nat → Bool)
    (rects : List Rect) : (Nat → Nat → Bool) × List Rect :=
  if hy : y < hgt then
    scanRows mask w hgt (y + 1) (scanRow mask w hgt y 0 proc rects).1
      (scanRow mask w hgt y 0 proc rects).2
  else
    (proc, rects)
termination_by hgt - y
decreasing_by omega

/-- `_greedy_rect_merge(mask, height_px)`: run the row-major scan over the
whole `hgt x w` mask starting from an all-`False` `processed` array and an
empty rectangle list, and return the recorded rectangles. -/
def greedyRectMerge (mask : Nat → Nat → Bool) (hgt w : Nat) : List Rect :=
  (scanRows mask w hgt 0 (fun _ _ => false) []).2

/-- Cell `(y, x)` is covered by some rectangle of the list. -/
def inRects (rects : List Rect) (y x : Nat) : Prop :=
  ∃ r ∈ rects, inRect r y x

/-- A rectangle is well-formed for the mask: nonempty, inside the `hgt x w`
bounds, and covering only `True` cells. -/
def rectFits (mask : Nat → Nat → Bool) (hgt w : Nat) (r : Rect) : Prop :=
  r.x1 ≤ w ∧ r.y1 ≤ hgt ∧ r.x0 < r.x1 ∧ r.y0 < r.y1 ∧
    ∀ y x, inRect r y x → mask y x = true

/-- Two rectangles share no cell. -/
def rectDisjoint (r1 r2 : Rect) : Prop :=
  ∀ y x, ¬ (inRect r1 y x ∧ inRect r2 y x)

/-- Loop invariant tying the `processed` array to the recorded rectangles:
`processed` is exactly the union of the rectangles, every rectangle is
well-formed, and the rectangles are pairwise disjoint. -/
def stateInv (mask : Nat → Nat → Bool) (hgt w : Nat) (proc : Nat → Nat → Bool)
    (rects : List Rect) : Prop :=
  (∀ y x, proc y x = true ↔ inRects rects y x) ∧
    (∀ r ∈ rects, rectFits mask hgt w r) ∧
    rects.Pairwise rectDisjoint

theorem inRects_append_single (rects : List Rect) (nr : Rect) (y x : Nat) :
    inRects (rects ++ [nr]) y x ↔ inRects rects y x ∨ inRect nr y x := by
  unfold inRects
  constructor
  · rintro ⟨r, hr, hin⟩
    rcases List.mem_append.mp hr with h | h
    · exact Or.inl ⟨r, h, hin⟩
    · rw [List.mem_singleton] at h
      subst h
      exact Or.inr hin
  · rintro (⟨r, hr, hin⟩ | hin)
    · exact ⟨r, List.mem_append_left _ hr, hin⟩
    · exact ⟨nr, List.mem_append_right _ (List.mem_singleton_self nr), hin⟩

theorem scanRow_spec (mask : Nat → Nat → Bool) (w hgt y : Nat) (hy : y < hgt) :
    ∀ n x proc rects, w - x ≤ n →
      stateInv mask hgt w proc rects →
      (∀ xx, xx < x → mask y xx = true → proc y xx = true) →
      stateInv mask hgt w (scanRow mask w hgt y x proc rects).1
          (scanRow mask w hgt y x proc rects).2 ∧
        (∀ yy xx, proc yy xx = true →
          (scanRow mask w hgt y x proc rects).1 yy xx = true) ∧
        ∀ xx, xx < w → mask y xx = true →
          (scanRow mask w hgt y x proc rects).1 y xx = true := by
  intro n
  induction n with
  | zero =>
    intro x proc rects hle hinv hpart
    rw [scanRow]
    have hx : ¬ x < w := by omega
    rw [dif_neg hx]
    exact ⟨hinv, fun yy xx h => h, fun xx h1 h2 => hpart xx (by omega) h2⟩
  | succ n ih =>
    intro x proc rects hle hinv hpart
    rw [scanRow]
    by_cases hx : x < w
    · rw [dif_pos hx]
      by_cases hs : mask y x = true ∧ proc y x = false
      · rw [dif_pos hs]
        obtain ⟨hER1, hER2, hER3⟩ := expandRight_props mask proc y w (x + 1)
        obtain ⟨hED1, hED2, hED3⟩ :=
          expandDown_props mask proc x (expandRight mask proc y w (x + 1)) hgt (y + 1)
        set xe := expandRight mask proc y w (x + 1) with hxedef
        set ye := expandDown mask proc x xe hgt (y + 1) with hyedef
        have hxew : xe ≤ w := hER2 (by omega)
        have hyeh : ye ≤ hgt := hED2 (by omega)
        have hfresh : ∀ yy xx, inRect ⟨x, y, xe, ye⟩ yy xx →
            mask yy xx = true ∧ proc yy xx = false := by
          intro yy xx hin
          obtain ⟨hy1, hy2, hx1, hx2⟩ := (inRect_mk x y xe ye yy xx).mp hin
          rcases Nat.eq_or_lt_of_le hy1 with he | hlt
          · rcases Nat.eq_or_lt_of_le hx1 with hex | hltx
            · rw [← he, ← hex]
              exact hs
            · rw [← he]
              exact hER3 xx (by omega) hx2
          · have hrv := hED3 yy (by omega) hy2
            rw [rowValid_iff] at hrv
            exact hrv xx hx1 hx2
        have hnewfits : rectFits mask hgt w ⟨x, y, xe, ye⟩ :=
          ⟨hxew, hyeh, by show x < xe; omega, by show y < ye; omega,
            fun yy xx hin => (hfresh yy xx hin).1⟩
        obtain ⟨hiff, hfits, hpw⟩ := hinv
        have hinv' : stateInv mask hgt w (markRect proc x y xe ye)
            (rects ++ [⟨x, y, xe, ye⟩]) := by
          refine ⟨?_, ?_, ?_⟩
          · intro yy xx
            rw [markRect_true_iff, inRects_append_single, hiff]
          · intro r hr
            rcases List.mem_append.mp hr with h | h
            · exact hfits r h
            · rw [List.mem_singleton] at h
              subst h
              exact hnewfits
          · rw [List.pairwise_append]
            refine ⟨hpw, List.pairwise_singleton _ _, ?_⟩
            intro a ha b hb
            rw [List.mem_singleton] at hb
            subst hb
            rintro yy xx ⟨hina, hinb⟩
            have h1 : proc yy xx = true := (hiff yy xx).mpr ⟨a, ha, hina⟩
            have h2 : proc yy xx = false := (hfresh yy xx hinb).2
            rw [h1] at h2
            simp at h2
        have hpart' : ∀ xx, xx < xe → mask y xx = true →
            markRect proc x y xe ye y xx = true := by
          intro xx hxx hmask
          by_cases hlt : xx < x
          · exact markRect_mono proc x y xe ye y xx (hpart xx hlt hmask)
          · rw [markRect_true_iff]
            refine Or.inr ((inRect_mk x y xe ye y xx).mpr ?_)
            exact ⟨le_refl y, by omega, by omega, hxx⟩
        have hrec := ih xe (markRect proc x y xe ye) (rects ++ [⟨x, y, xe, ye⟩])
          (by omega) hinv' hpart'
        refine ⟨hrec.1, ?_, hrec.2.2⟩
        intro yy xx hp
        exact hrec.2.1 yy xx (markRect_mono proc x y xe ye yy xx hp)
      · rw [dif_neg hs]
        apply ih (x + 1) proc rects (by omega) ⟨hinv.1, hinv.2.1, hinv.2.2⟩
        intro xx hxx hmask
        rcases Nat.lt_succ_iff_lt_or_eq.mp hxx with h | h
        · exact hpart xx h hmask
        · cases hpx : proc y xx with
          | true => rfl
          | false =>
            rw [h] at hmask hpx
            exact absurd ⟨hmask, hpx⟩ hs
    · rw [dif_neg hx]
      exact ⟨hinv, fun yy xx h => h, fun xx h1 h2 => hpart xx (by omega) h2⟩

end Mesher

namespace Mesher

theorem scanRows_spec (mask : Nat → Nat → Bool) (w hgt : Nat) :
    ∀ n y proc rects, hgt - y ≤ n →
      stateInv mask hgt w proc rects →
      (∀ yy, yy < y → ∀ xx, xx < w → mask yy xx = true → proc yy xx = true) →
      stateInv mask hgt w (scanRows mask w hgt y proc rects).1
          (scanRows mask w hgt y proc rects).2 ∧
        ∀ yy, yy < hgt → ∀ xx, xx < w → mask yy xx = true →
          (scanRows mask w hgt y proc rects).1 yy xx = true := by
  intro n
  induction n with
  | zero =>
    intro y proc rects hle hinv hcov
    rw [scanRows]
    have hy : ¬ y < hgt := by omega
    rw [dif_neg hy]
    exact ⟨hinv, fun yy hyy xx hxx hm => hcov yy (by omega) xx hxx hm⟩
  | succ n ih =>
    intro y proc rects hle hinv hcov
    rw [scanRows]
    by_cases hy : y < hgt
    · rw [dif_pos hy]
      obtain ⟨hinv1, hmono1, hrow1⟩ :=
        scanRow_spec mask w hgt y hy w 0 proc rects (by omega) hinv
          (fun xx hxx => absurd hxx (by omega))
      apply ih (y + 1) _ _ (by omega) hinv1
      intro yy hyy xx hxx hm
      rcases Nat.lt_succ_iff_lt_or_eq.mp hyy with h | h
      · exact hmono1 yy xx (hcov yy h xx hxx hm)
      · rw [h] at hm ⊢
        exact hrow1 xx hxx hm
    · rw [dif_neg hy]
      exact ⟨hinv, fun yy hyy xx hxx hm => hcov yy (by omega) xx hxx hm⟩

/-- Claim C1: for every 2D boolean mask (of height `hgt` and width `w`), the
greedy rectangle merge returns a list of axis-aligned rectangles whose union
equals exactly the set of `True` cells of the mask, and no two returned
rectangles overlap. -/
theorem greedyRectMerge_exact_cover (mask : Nat → Nat → Bool) (hgt w : Nat) :
    (∀ y x, inRects (greedyRectMerge mask hgt w) y x ↔
        y < hgt ∧ x < w ∧ mask y x = true) ∧
      (greedyRectMerge mask hgt w).Pairwise rectDisjoint := by
  unfold greedyRectMerge
  have hinv0 : stateInv mask hgt w (fun _ _ => false) [] := by
    refine ⟨?_, ?_, List.Pairwise.nil⟩
    · intro y x
      simp [inRects]
    · intro r hr
      cases hr
  obtain ⟨hinvF, hcovF⟩ :=
    scanRows_spec mask w hgt hgt 0 (fun _ _ => false) [] (by omega) hinv0
      (fun yy hyy => absurd hyy (by omega))
  obtain ⟨hiff, hfits, hpw⟩ := hinvF
  refine ⟨?_, hpw⟩
  intro y x
  constructor
  · rintro ⟨r, hr, hin⟩
    obtain ⟨hw1, hh1, -, -, hmask⟩ := hfits r hr
    obtain ⟨h1, h2, h3, h4⟩ := hin
    exact ⟨by omega, by omega, hmask y x ⟨h1, h2, h3, h4⟩⟩
  · rintro ⟨hy, hx, hm⟩
    exact (hiff y x).mp (hcovF y hy x hx hm)

end Mesher
